import Mathlib

/-!
Shallow embedding of the template_rs placeholder-substitution engine
(src/lib.rs) and proofs about its specified behaviour.

Modelling conventions:
* Rust strings are lists of characters (`Str`).
* The `HashMap<String, String>` of placeholders is an association list with
  distinct keys.  Rust's hash map has no specified iteration order; the
  model fixes first-insertion order as the canonical order and, for every
  order-sensitive statement, quantifies over permutations of the entry list.
* Fallible operations return `Except TemplateError`.
* Recursions that are not structural in the scanned text (the regex scan and
  `str::replace`) take an explicit fuel argument; the wrappers pass the text
  length as fuel, which suffices because every step consumes at least one
  character.
-/

namespace TemplateRs

/-- Characters of a Rust `String` or `&str`. -/
abbrev Str := List Char

/-- Error enumeration `TemplateError` of src/lib.rs.  Payloads are the data
the Rust constructors carry (messages or the offending placeholder name). -/
inductive TemplateError where
  | ioFailure : Str → TemplateError
  | parseFailure : Str → TemplateError
  | missingPlaceholder : Str → TemplateError
  | invalidMarker : Str → TemplateError
  | executionFailure : Str → TemplateError
deriving DecidableEq

/-- Does `pat` occur at the head of `s`?  Mirrors the position-wise test the
regex engine and `str::replace` perform. -/
def startsWith : Str → Str → Bool
  | [], _ => true
  | _ :: _, [] => false
  | p :: ps, c :: cs => decide (p = c) && startsWith ps cs

/-- Attempt of the regex tail right after an `@[` has been consumed: the
capture `[^]]+` takes the maximal (nonempty) run of characters other than
`]`, which must then be followed by `]` and `@`.  Returns the capture and
the text after the closing `]@`. -/
def scanInner (s : Str) : Option (Str × Str) :=
  match s.dropWhile (fun c => decide (c ≠ ']')) with
  | ']' :: '@' :: rest =>
      if s.takeWhile (fun c => decide (c ≠ ']')) = [] then none
      else some (s.takeWhile (fun c => decide (c ≠ ']')), rest)
  | _ => none

/-- One attempt of the regex `@\[([^]]+)\]@` at the current position: the
text must start with `@[` and `scanInner` must complete the marker. -/
def markerHead : Str → Option (Str × Str)
  | '@' :: '[' :: rest => scanInner rest
  | _ => none

/-- Fuelled scan for all non-overlapping, leftmost matches of the marker
regex, as `Regex::captures_iter` produces them: on a match the scan resumes
after the closing `]@`; otherwise it advances one character. -/
def findMarkersFuel : Nat → Str → List Str
  | _, [] => []
  | 0, _ :: _ => []
  | fuel + 1, c :: rest =>
      match markerHead (c :: rest) with
      | some (inner, rest') => inner :: findMarkersFuel fuel rest'
      | none => findMarkersFuel fuel rest

/-- All capture-group texts of `captures_iter` over the content, in match
order.  Fuel equal to the length suffices: every step consumes at least one
character. -/
def findMarkers (s : Str) : List Str := findMarkersFuel s.length s

/-- Rust `str::trim` (whitespace stripped from both ends), restricted to the
ASCII whitespace covered by `Char.isWhitespace`; the claims only exercise
the space character. -/
def trim (s : Str) : Str :=
  ((s.dropWhile Char.isWhitespace).reverse.dropWhile Char.isWhitespace).reverse

/-- `HashMap::insert` on the association-list model: replace the value of an
existing key in place, otherwise append the new entry. -/
def hmInsert : List (Str × Str) → Str → Str → List (Str × Str)
  | [], k, v => [(k, v)]
  | (k', v') :: rest, k, v =>
      if k' = k then (k, v) :: rest else (k', v') :: hmInsert rest k v

/-- Body of the `captures_iter` loop in `Template::extract_placeholders`:
insert the trimmed capture with an empty (unbound) value. -/
def insertName (m : List (Str × Str)) (n : Str) : List (Str × Str) :=
  hmInsert m (trim n) []

/-- `Template::extract_placeholders`: scan the content and collect every
trimmed capture into the map, each with the empty value.  The Rust function
returns `Result` but never fails. -/
def extract_placeholders (content : Str) : List (Str × Str) :=
  (findMarkers content).foldl insertName []

/-- The `Template` struct: document text plus the placeholder map.  The
`path: Option<PathBuf>` provenance field plays no part in any operation the
claims mention and is omitted. -/
structure Template where
  content : Str
  placeholders : List (Str × Str)
deriving DecidableEq

/-- `Template::new`: store the content and the scanned placeholder map.  The
Rust constructor returns `Result` but its only fallible step never fails. -/
def Template.new (content : Str) : Template :=
  { content := content, placeholders := extract_placeholders content }

/-- `HashMap::contains_key` on the model. -/
def containsKey (m : List (Str × Str)) (k : Str) : Bool :=
  m.any (fun kv => decide (kv.1 = k))

/-- `Template::set`: reject names that are not keys of the map, otherwise
overwrite the value.  On the error path the map is untouched. -/
def Template.set (t : Template) (placeholder value : Str) :
    Except TemplateError Template :=
  if containsKey t.placeholders placeholder then
    .ok { t with placeholders := hmInsert t.placeholders placeholder value }
  else
    .error (.missingPlaceholder placeholder)

/-- The replacement pattern `format!("@[{p}]@")` built by `render`. -/
def marker (name : Str) : Str := '@' :: '[' :: (name ++ [']', '@'])

/-- Fuelled `str::replace`: replace every non-overlapping, leftmost
occurrence of `pat`, scanning left to right and resuming after each
replacement.  `render` only ever passes the nonempty pattern `@[name]@`. -/
def replaceAllFuel (pat rep : Str) : Nat → Str → Str
  | _, [] => []
  | 0, c :: rest => c :: rest
  | fuel + 1, c :: rest =>
      if pat ≠ [] ∧ startsWith pat (c :: rest) = true then
        rep ++ replaceAllFuel pat rep fuel ((c :: rest).drop pat.length)
      else
        c :: replaceAllFuel pat rep fuel rest

/-- `str::replace` with fuel equal to the text length, which suffices
because every step consumes at least one character. -/
def replaceAll (pat rep s : Str) : Str := replaceAllFuel pat rep s.length s

/-- The loop of `Template::render` over the placeholder entries, taken in an
explicit order: for each entry, fail if its value is still empty, otherwise
replace every occurrence of its marker in the working text.  Rust iterates
the hash map in an arbitrary (per-map, per-run deterministic) order, so the
entry list is a parameter; order-sensitive theorems quantify over
permutations of the map. -/
def renderWith : List (Str × Str) → Str → Except TemplateError Str
  | [], acc => .ok acc
  | (placeholder, value) :: rest, acc =>
      if value = [] then .error (.missingPlaceholder placeholder)
      else renderWith rest (replaceAll (marker placeholder) value acc)

/-- `Template::render` using the model's canonical entry order.  It takes
the template immutably (Rust `&self`): no call can change the map. -/
def Template.render (t : Template) : Except TemplateError Str :=
  renderWith t.placeholders t.content

/-- The `TemplateAssembler` struct: the owned templates in insertion order. -/
structure TemplateAssembler where
  templates : List Template
deriving DecidableEq

/-- `TemplateAssembler::new`. -/
def TemplateAssembler.new : TemplateAssembler := ⟨[]⟩

/-- `TemplateAssembler::add_template`: append. -/
def TemplateAssembler.add_template (a : TemplateAssembler) (t : Template) :
    TemplateAssembler :=
  ⟨a.templates ++ [t]⟩

/-- Loop of `TemplateAssembler::set_global`: bind on every template whose
map contains the name, skip the others, propagating a bind failure. -/
def setGlobalList (placeholder value : Str) :
    List Template → Except TemplateError (List Template)
  | [] => .ok []
  | t :: rest =>
      if containsKey t.placeholders placeholder then
        match t.set placeholder value with
        | .ok t' => (setGlobalList placeholder value rest).map (fun ts => t' :: ts)
        | .error e => .error e
      else
        (setGlobalList placeholder value rest).map (fun ts => t :: ts)

/-- `TemplateAssembler::set_global`. -/
def TemplateAssembler.set_global (a : TemplateAssembler)
    (placeholder value : Str) : Except TemplateError TemplateAssembler :=
  (setGlobalList placeholder value a.templates).map TemplateAssembler.mk

/-- Loop of `TemplateAssembler::render_all`: render each template in order,
appending a newline after each rendered text, failing on the first render
error. -/
def renderAllList : List Template → Except TemplateError Str
  | [] => .ok []
  | t :: rest => do
      let r ← t.render
      let rs ← renderAllList rest
      .ok (r ++ '\n' :: rs)

/-- `TemplateAssembler::render_all`. -/
def TemplateAssembler.render_all (a : TemplateAssembler) :
    Except TemplateError Str :=
  renderAllList a.templates

/-- Keys of a placeholder map, in entry order. -/
def keyList (m : List (Str × Str)) : List Str := m.map Prod.fst

/-- The key set of a template's map. -/
def keysOf (t : Template) : List Str := keyList t.placeholders

/-- Result a caller keeps after `Template::set`: the updated template on
success; on failure `set` returns before touching the map, so the template
is unchanged. -/
def bindResult (t : Template) (k v : Str) : Template :=
  match t.set k v with
  | .ok t' => t'
  | .error _ => t

/-- Apply `Template::set` to the template at one index of the assembler's
sequence, as a caller holding the assembler would. -/
def bindAt (k v : Str) : Nat → List Template → List Template
  | _, [] => []
  | 0, t :: rest => bindResult t k v :: rest
  | i + 1, t :: rest => t :: bindAt k v i rest

/-- One call of the public mutating-or-reading API: bind on one template,
a global bind, or a full render (which takes the state immutably). -/
inductive TplOp where
  | bindOn : Nat → Str → Str → TplOp
  | globalBind : Str → Str → TplOp
  | renderAllOp : TplOp

/-- State transition of one API call.  `set_global` cannot fail (presence is
checked before each bind), and on the nominal failure channel the caller's
state is the one before the call. -/
def applyOp (a : TemplateAssembler) : TplOp → TemplateAssembler
  | .bindOn i k v => ⟨bindAt k v i a.templates⟩
  | .globalBind k v =>
      match a.set_global k v with
      | .ok a' => a'
      | .error _ => a
  | .renderAllOp => a

/-- Executable test that `pat` occurs contiguously somewhere in `s`; used to
state, decidably, whether a piece of text appears verbatim in an output. -/
def containsSub (pat : Str) : Str → Bool
  | [] => decide (pat = [])
  | c :: rest => startsWith pat (c :: rest) || containsSub pat rest

/-- Concrete aggregator scenario of the spec: T1 from "A=@[x]@" and T2 from
"B=@[y]@" added in that order, then SetGlobal("x","1"). -/
def aggScenario : Except TemplateError TemplateAssembler :=
  ((TemplateAssembler.new.add_template
      (Template.new ("A=@[x]@".toList))).add_template
      (Template.new ("B=@[y]@".toList))).set_global ("x".toList) ("1".toList)

/-! Helper lemmas about the scanner. -/

theorem startsWith_iff (pat : Str) : ∀ s : Str,
    startsWith pat s = true ↔ ∃ t, s = pat ++ t := by
  induction pat with
  | nil =>
    intro s
    simp [startsWith]
  | cons p ps ih =>
    intro s
    cases s with
    | nil =>
      simp [startsWith]
    | cons c cs =>
      simp only [startsWith, Bool.and_eq_true, decide_eq_true_eq, ih,
        List.cons_append, List.cons.injEq]
      constructor
      · rintro ⟨rfl, t, rfl⟩
        exact ⟨t, rfl, rfl⟩
      · rintro ⟨t, rfl, rfl⟩
        exact ⟨rfl, t, rfl⟩

theorem mem_takeWhile_ne (s : Str) :
    ∀ c ∈ s.takeWhile (fun c => decide (c ≠ ']')), c ≠ ']' := by
  intro c hc
  have := List.mem_takeWhile_imp hc
  simpa using this

theorem scanInner_eq_some {s inner rest : Str}
    (h : scanInner s = some (inner, rest)) :
    inner ≠ [] ∧ (∀ c ∈ inner, c ≠ ']') ∧ s = inner ++ ']' :: '@' :: rest := by
  unfold scanInner at h
  split at h
  case _ heq =>
    split at h
    · exact absurd h (by simp)
    case _ hne =>
      injection h with h'
      injection h' with h1 h2
      subst h1
      subst h2
      refine ⟨hne, mem_takeWhile_ne s, ?_⟩
      conv_lhs => rw [← List.takeWhile_append_dropWhile
        (fun c => decide (c ≠ ']')) s]
      rw [heq]
  case _ =>
    exact absurd h (by simp)

theorem markerHead_eq_some {s inner rest : Str}
    (h : markerHead s = some (inner, rest)) :
    inner ≠ [] ∧ (∀ c ∈ inner, c ≠ ']') ∧ s = marker inner ++ rest := by
  unfold markerHead at h
  split at h
  case _ r =>
    obtain ⟨h1, h2, h3⟩ := scanInner_eq_some h
    refine ⟨h1, h2, ?_⟩
    simp [marker, h3]
  case _ =>
    exact absurd h (by simp)

theorem findMarkersFuel_succ_cons (fuel : Nat) (c : Char) (rest : Str) :
    findMarkersFuel (fuel + 1) (c :: rest) =
      match markerHead (c :: rest) with
      | some (inner, rest') => inner :: findMarkersFuel fuel rest'
      | none => findMarkersFuel fuel rest := rfl

theorem findMarkersFuel_sound :
    ∀ (fuel : Nat) (s : Str), ∀ i ∈ findMarkersFuel fuel s,
      i ≠ [] ∧ (∀ c ∈ i, c ≠ ']') ∧ ∃ pre post, s = pre ++ marker i ++ post := by
  intro fuel
  induction fuel with
  | zero =>
    intro s i hi
    cases s with
    | nil => simp [findMarkersFuel] at hi
    | cons c rest => simp [findMarkersFuel] at hi
  | succ fuel ih =>
    intro s i hi
    cases s with
    | nil => simp [findMarkersFuel] at hi
    | cons c rest =>
      rw [findMarkersFuel_succ_cons] at hi
      cases hm : markerHead (c :: rest) with
      | some p =>
        obtain ⟨inner, rest'⟩ := p
        rw [hm] at hi
        simp only [List.mem_cons] at hi
        obtain ⟨h1, h2, h3⟩ := markerHead_eq_some hm
        cases hi with
        | inl hii =>
          subst hii
          exact ⟨h1, h2, [], rest', by simpa using h3⟩
        | inr hii =>
          obtain ⟨g1, g2, pre, post, g3⟩ := ih rest' i hii
          refine ⟨g1, g2, marker inner ++ pre, post, ?_⟩
          rw [h3, g3]
          simp
      | none =>
        rw [hm] at hi
        obtain ⟨g1, g2, pre, post, g3⟩ := ih rest i hi
        exact ⟨g1, g2, c :: pre, post, by rw [g3]; rfl⟩

theorem findMarkers_sound (s : Str) :
    ∀ i ∈ findMarkers s,
      i ≠ [] ∧ (∀ c ∈ i, c ≠ ']') ∧ ∃ pre post, s = pre ++ marker i ++ post :=
  findMarkersFuel_sound s.length s

/-! Helper lemmas about the association-list model of the hash map. -/

theorem containsKey_iff (m : List (Str × Str)) (k : Str) :
    containsKey m k = true ↔ k ∈ keyList m := by
  simp only [containsKey, keyList, List.any_eq_true, decide_eq_true_eq,
    List.mem_map]

theorem mem_keyList_hmInsert (k' k v : Str) : ∀ m : List (Str × Str),
    k' ∈ keyList (hmInsert m k v) ↔ k' ∈ keyList m ∨ k' = k := by
  intro m
  induction m with
  | nil => simp [hmInsert, keyList]
  | cons kv rest ih =>
    obtain ⟨a, b⟩ := kv
    by_cases hak : a = k
    · have he : hmInsert ((a, b) :: rest) k v = (k, v) :: rest := by
        simp [hmInsert, hak]
      rw [he]
      simp only [keyList, List.map_cons, List.mem_cons, hak]
      constructor
      · exact Or.inl
      · rintro ((h | h) | h)
        · exact Or.inl h
        · exact Or.inr h
        · exact Or.inl h
    · simp only [hmInsert, if_neg hak, keyList, List.map_cons, List.mem_cons]
      rw [show List.map Prod.fst (hmInsert rest k v) = keyList (hmInsert rest k v) from rfl]
      rw [ih]
      simp only [keyList]
      tauto

theorem keyList_hmInsert_of_mem (k v : Str) : ∀ m : List (Str × Str),
    k ∈ keyList m → keyList (hmInsert m k v) = keyList m := by
  intro m
  induction m with
  | nil => simp [keyList]
  | cons kv rest ih =>
    obtain ⟨a, b⟩ := kv
    intro hk
    by_cases hak : a = k
    · subst hak
      simp [hmInsert, keyList]
    · simp only [keyList, List.map_cons, List.mem_cons] at hk
      rcases hk with hk | hk
      · exact absurd hk.symm hak
      · simp only [hmInsert, if_neg hak, keyList, List.map_cons]
        rw [show List.map Prod.fst (hmInsert rest k v) = keyList (hmInsert rest k v) from rfl,
          ih hk]
        rfl

theorem nodup_keyList_hmInsert (k v : Str) : ∀ m : List (Str × Str),
    (keyList m).Nodup → (keyList (hmInsert m k v)).Nodup := by
  intro m
  induction m with
  | nil =>
    intro _
    simp [hmInsert, keyList]
  | cons kv rest ih =>
    obtain ⟨a, b⟩ := kv
    intro hnd
    simp only [keyList, List.map_cons, List.nodup_cons] at hnd
    by_cases hak : a = k
    · have he : hmInsert ((a, b) :: rest) k v = (k, v) :: rest := by
        simp [hmInsert, hak]
      rw [he]
      simp only [keyList, List.map_cons, List.nodup_cons]
      rw [← hak]
      exact hnd
    · have he : hmInsert ((a, b) :: rest) k v = (a, b) :: hmInsert rest k v := by
        simp [hmInsert, hak]
      rw [he]
      simp only [keyList, List.map_cons, List.nodup_cons]
      constructor
      · intro hmem
        rw [show List.map Prod.fst (hmInsert rest k v) = keyList (hmInsert rest k v) from rfl,
          mem_keyList_hmInsert] at hmem
        rcases hmem with hmem | hmem
        · exact hnd.1 hmem
        · exact hak hmem
      · exact ih hnd.2

theorem values_hmInsert_nil (k : Str) : ∀ m : List (Str × Str),
    (∀ kv ∈ m, kv.2 = []) → ∀ kv ∈ hmInsert m k [], kv.2 = [] := by
  intro m
  induction m with
  | nil =>
    intro _ kv hkv
    simp only [hmInsert, List.mem_singleton] at hkv
    subst hkv
    rfl
  | cons ab rest ih =>
    obtain ⟨a, b⟩ := ab
    intro hall kv hkv
    by_cases hak : a = k
    · have he : hmInsert ((a, b) :: rest) k [] = (k, ([] : Str)) :: rest := by
        simp [hmInsert, hak]
      rw [he] at hkv
      rcases List.mem_cons.mp hkv with h | h
      · rw [h]
      · exact hall kv (List.mem_cons_of_mem _ h)
    · have he : hmInsert ((a, b) :: rest) k [] = (a, b) :: hmInsert rest k [] := by
        simp [hmInsert, hak]
      rw [he] at hkv
      rcases List.mem_cons.mp hkv with h | h
      · rw [h]
        exact hall (a, b) (List.mem_cons_self _ _)
      · exact ih (fun kv h => hall kv (List.mem_cons_of_mem _ h)) kv h

theorem mem_keyList_foldl_insertName (k : Str) : ∀ (names : List Str)
    (m : List (Str × Str)),
    k ∈ keyList (names.foldl insertName m) ↔
      k ∈ keyList m ∨ ∃ n ∈ names, trim n = k := by
  intro names
  induction names with
  | nil => simp
  | cons n ns ih =>
    intro m
    simp only [List.foldl_cons, ih, insertName, mem_keyList_hmInsert,
      List.mem_cons]
    constructor
    · rintro ((h | h) | h)
      · exact Or.inl h
      · exact Or.inr ⟨n, Or.inl rfl, h.symm⟩
      · obtain ⟨n', hn', rfl⟩ := h
        exact Or.inr ⟨n', Or.inr hn', rfl⟩
    · rintro (h | ⟨n', (rfl | hn'), rfl⟩)
      · exact Or.inl (Or.inl h)
      · exact Or.inl (Or.inr rfl)
      · exact Or.inr ⟨n', hn', rfl⟩

theorem nodup_keyList_foldl_insertName : ∀ (names : List Str)
    (m : List (Str × Str)),
    (keyList m).Nodup → (keyList (names.foldl insertName m)).Nodup := by
  intro names
  induction names with
  | nil =>
    intro m h
    simpa using h
  | cons n ns ih =>
    intro m h
    simp only [List.foldl_cons]
    exact ih _ (nodup_keyList_hmInsert _ _ _ h)

theorem values_foldl_insertName : ∀ (names : List Str) (m : List (Str × Str)),
    (∀ kv ∈ m, kv.2 = []) → ∀ kv ∈ names.foldl insertName m, kv.2 = [] := by
  intro names
  induction names with
  | nil =>
    intro m h
    simpa using h
  | cons n ns ih =>
    intro m h
    simp only [List.foldl_cons]
    exact ih _ (values_hmInsert_nil _ _ h)

theorem containsSub_iff (pat : Str) : ∀ s : Str,
    containsSub pat s = true ↔ ∃ pre post, s = pre ++ pat ++ post := by
  intro s
  induction s with
  | nil =>
    simp only [containsSub, decide_eq_true_eq]
    constructor
    · rintro rfl
      exact ⟨[], [], rfl⟩
    · rintro ⟨pre, post, h⟩
      rcases List.append_eq_nil.mp (List.append_eq_nil.mp h.symm).1 with ⟨-, h2⟩
      exact h2
  | cons c rest ih =>
    simp only [containsSub, Bool.or_eq_true, startsWith_iff, ih]
    constructor
    · rintro (⟨t, ht⟩ | ⟨pre, post, h⟩)
      · exact ⟨[], t, by simpa using ht⟩
      · exact ⟨c :: pre, post, by rw [h]; rfl⟩
    · rintro ⟨pre, post, h⟩
      cases pre with
      | nil =>
        exact Or.inl ⟨post, by simpa using h⟩
      | cons p pre' =>
        injection h with h1 h2
        exact Or.inr ⟨pre', post, h2⟩

/-! Helper lemmas about replacement and rendering. -/

theorem replaceAllFuel_no_occ (pat rep : Str) :
    ∀ (fuel : Nat) (s : Str), s.length ≤ fuel →
      (∀ pre post, s ≠ pre ++ pat ++ post) →
      replaceAllFuel pat rep fuel s = s := by
  intro fuel
  induction fuel with
  | zero =>
    intro s hlen _
    cases s with
    | nil => rfl
    | cons c rest => simp at hlen
  | succ fuel ih =>
    intro s hlen hno
    cases s with
    | nil => rfl
    | cons c rest =>
      have hcond : ¬ (pat ≠ [] ∧ startsWith pat (c :: rest) = true) := by
        rintro ⟨hne, hsw⟩
        obtain ⟨t, ht⟩ := (startsWith_iff pat (c :: rest)).mp hsw
        exact hno [] t (by simpa using ht)
      rw [show replaceAllFuel pat rep (fuel + 1) (c :: rest) =
        if pat ≠ [] ∧ startsWith pat (c :: rest) = true then
          rep ++ replaceAllFuel pat rep fuel ((c :: rest).drop pat.length)
        else c :: replaceAllFuel pat rep fuel rest from rfl,
        if_neg hcond]
      have hl : rest.length ≤ fuel := by
        simpa [Nat.succ_le_succ_iff] using hlen
      have hrest : ∀ pre post, rest ≠ pre ++ pat ++ post := by
        intro pre post h
        exact hno (c :: pre) post (by rw [h]; rfl)
      rw [ih rest hl hrest]

theorem replaceAll_no_occ (pat rep s : Str)
    (hno : ∀ pre post, s ≠ pre ++ pat ++ post) :
    replaceAll pat rep s = s :=
  replaceAllFuel_no_occ pat rep s.length s le_rfl hno

theorem renderWith_ok_of_bound : ∀ (l : List (Str × Str)) (c : Str),
    (∀ kv ∈ l, kv.2 ≠ []) → ∃ s, renderWith l c = .ok s := by
  intro l
  induction l with
  | nil =>
    intro c _
    exact ⟨c, rfl⟩
  | cons kv rest ih =>
    obtain ⟨k, v⟩ := kv
    intro c hall
    have hv : v ≠ [] := hall (k, v) (List.mem_cons_self _ _)
    simp only [renderWith, if_neg hv]
    exact ih _ (fun kv h => hall kv (List.mem_cons_of_mem _ h))

theorem renderWith_error_of_unbound : ∀ (l : List (Str × Str)) (c : Str),
    (∃ kv ∈ l, kv.2 = []) →
    ∃ k, renderWith l c = .error (.missingPlaceholder k) ∧ (k, ([] : Str)) ∈ l := by
  intro l
  induction l with
  | nil =>
    rintro c ⟨kv, h, _⟩
    simp at h
  | cons kv rest ih =>
    obtain ⟨k, v⟩ := kv
    intro c hex
    by_cases hv : v = []
    · subst hv
      exact ⟨k, by simp [renderWith], List.mem_cons_self _ _⟩
    · simp only [renderWith, if_neg hv]
      obtain ⟨kv', hkv', hkv2⟩ := hex
      rcases List.mem_cons.mp hkv' with h | h
      · exfalso
        rw [h] at hkv2
        exact hv hkv2
      · obtain ⟨k', hk'⟩ := ih (replaceAll (marker k) v c) ⟨kv', h, hkv2⟩
        exact ⟨k', hk'.1, List.mem_cons_of_mem _ hk'.2⟩

/-! Helper lemmas about the assembler operations. -/

theorem setGlobalList_keys (k v : Str) : ∀ (ts ts' : List Template),
    setGlobalList k v ts = .ok ts' → ts'.map keysOf = ts.map keysOf := by
  intro ts
  induction ts with
  | nil =>
    intro ts' h
    simp only [setGlobalList] at h
    injection h with h
    rw [← h]
  | cons t rest ih =>
    intro ts' h
    by_cases hc : containsKey t.placeholders k = true
    · have hset : t.set k v =
          .ok { t with placeholders := hmInsert t.placeholders k v } := by
        simp [Template.set, hc]
      simp only [setGlobalList, if_pos hc, hset] at h
      cases hrec : setGlobalList k v rest with
      | ok ts2 =>
        rw [hrec] at h
        simp only [Except.map] at h
        injection h with h
        rw [← h]
        simp only [List.map_cons]
        rw [ih ts2 hrec]
        have : keysOf { t with placeholders := hmInsert t.placeholders k v } =
            keysOf t :=
          keyList_hmInsert_of_mem _ _ _ ((containsKey_iff _ _).mp hc)
        rw [this]
      | error e =>
        rw [hrec] at h
        simp [Except.map] at h
    · simp only [setGlobalList, if_neg hc] at h
      cases hrec : setGlobalList k v rest with
      | ok ts2 =>
        rw [hrec] at h
        simp only [Except.map] at h
        injection h with h
        rw [← h]
        simp only [List.map_cons]
        rw [ih ts2 hrec]
      | error e =>
        rw [hrec] at h
        simp [Except.map] at h

theorem keysOf_bindResult (t : Template) (k v : Str) :
    keysOf (bindResult t k v) = keysOf t := by
  by_cases hc : containsKey t.placeholders k = true
  · have hset : t.set k v =
        .ok { t with placeholders := hmInsert t.placeholders k v } := by
      simp [Template.set, hc]
    simp only [bindResult, hset, keysOf]
    exact keyList_hmInsert_of_mem _ _ _ ((containsKey_iff _ _).mp hc)
  · have hset : t.set k v = .error (.missingPlaceholder k) := by
      simp [Template.set, hc]
    simp only [bindResult, hset]

theorem keysOf_bindAt (k v : Str) : ∀ (ts : List Template) (i : Nat),
    (bindAt k v i ts).map keysOf = ts.map keysOf := by
  intro ts
  induction ts with
  | nil =>
    intro i
    cases i <;> rfl
  | cons t rest ih =>
    intro i
    cases i with
    | zero => simp [bindAt, keysOf_bindResult]
    | succ j => simp [bindAt, ih j]

theorem keysOf_applyOp (a : TemplateAssembler) (op : TplOp) :
    (applyOp a op).templates.map keysOf = a.templates.map keysOf := by
  cases op with
  | bindOn i k v => simpa [applyOp] using keysOf_bindAt k v a.templates i
  | globalBind k v =>
    simp only [applyOp]
    cases hg : a.set_global k v with
    | ok a' =>
      unfold TemplateAssembler.set_global at hg
      cases hrec : setGlobalList k v a.templates with
      | ok ts' =>
        rw [hrec] at hg
        simp only [Except.map] at hg
        injection hg with hg
        rw [← hg]
        exact setGlobalList_keys _ _ _ _ hrec
      | error e =>
        rw [hrec] at hg
        simp [Except.map] at hg
    | error e => rfl
  | renderAllOp => rfl

theorem keysOf_foldl_applyOp (ops : List TplOp) : ∀ a : TemplateAssembler,
    ((ops.foldl applyOp a).templates).map keysOf = a.templates.map keysOf := by
  induction ops with
  | nil =>
    intro a
    rfl
  | cons op rest ih =>
    intro a
    simp only [List.foldl_cons]
    rw [ih (applyOp a op), keysOf_applyOp]

theorem eq_singleton_of_keyList_eq {m : List (Str × Str)} {p : Str}
    (h : keyList m = [p]) : ∃ v, m = [(p, v)] := by
  cases m with
  | nil => simp [keyList] at h
  | cons kv rest =>
    cases rest with
    | nil =>
      obtain ⟨a, b⟩ := kv
      simp only [keyList, List.map_cons, List.map_nil, List.cons.injEq,
        and_true] at h
      exact ⟨b, by rw [h]⟩
    | cons kv2 r2 =>
      simp [keyList] at h

/-! The claims. -/

/-- C1: constructing a Template from a document yields as key set exactly
the distinct trimmed capture texts of the @[...]@ marker occurrences found
by the scan (the left-to-right, non-overlapping matches of the marker
regex, the convention of `captures_iter`), independent of repetition, with
every key initially mapped to the empty (unbound) value; and every scanned
capture is a genuine marker occurrence of the document (nonempty, free of
`]`, delimited by `@[` and `]@`). -/
theorem C1_construction_key_set (d : Str) :
    (keyList (Template.new d).placeholders).Nodup ∧
    (∀ k : Str, k ∈ keyList (Template.new d).placeholders ↔
      ∃ inner, inner ∈ findMarkers d ∧ trim inner = k) ∧
    (∀ kv ∈ (Template.new d).placeholders, kv.2 = ([] : Str)) ∧
    (∀ inner ∈ findMarkers d, inner ≠ [] ∧ (∀ c ∈ inner, c ≠ ']') ∧
      ∃ pre post, d = pre ++ marker inner ++ post) := by
  refine ⟨?_, ?_, ?_, findMarkers_sound d⟩
  · exact nodup_keyList_foldl_insertName (findMarkers d) [] (by simp [keyList])
  · intro k
    have h := mem_keyList_foldl_insertName k (findMarkers d) []
    simpa [keyList] using h
  · intro kv hkv
    exact values_foldl_insertName (findMarkers d) [] (by simp) kv hkv

/-- C1 witness: the construction theorem instantiated at a document with a
repeated name, once written with inner whitespace. -/
theorem C1_construction_key_set_witness :
    (keyList (Template.new ("@[a]@@[ a ]@".toList)).placeholders).Nodup ∧
    (∀ k : Str, k ∈ keyList (Template.new ("@[a]@@[ a ]@".toList)).placeholders ↔
      ∃ inner, inner ∈ findMarkers ("@[a]@@[ a ]@".toList) ∧ trim inner = k) ∧
    (∀ kv ∈ (Template.new ("@[a]@@[ a ]@".toList)).placeholders,
      kv.2 = ([] : Str)) ∧
    (∀ inner ∈ findMarkers ("@[a]@@[ a ]@".toList),
      inner ≠ [] ∧ (∀ c ∈ inner, c ≠ ']') ∧
      ∃ pre post, "@[a]@@[ a ]@".toList = pre ++ marker inner ++ post) :=
  C1_construction_key_set ("@[a]@@[ a ]@".toList)

/-- C2: for a document whose discovered key set is exactly the single name
p, binding p to a nonempty value X succeeds, and render succeeds returning
one replace pass of the exact marker @[p]@ by X over the document text;
that pass leaves any text without a marker occurrence entirely unchanged. -/
theorem C2_single_placeholder_roundtrip (d p x : Str)
    (hk : keyList (Template.new d).placeholders = [p]) (hx : x ≠ []) :
    ∃ t', (Template.new d).set p x = .ok t' ∧
      t'.render = .ok (replaceAll (marker p) x d) ∧
      ∀ s : Str, (∀ pre post, s ≠ pre ++ marker p ++ post) →
        replaceAll (marker p) x s = s := by
  obtain ⟨v, hv⟩ := eq_singleton_of_keyList_eq hk
  have hval : v = [] := by
    have hmem : (p, v) ∈ (Template.new d).placeholders := by
      rw [hv]
      exact List.mem_singleton.mpr rfl
    exact values_foldl_insertName (findMarkers d) [] (by simp) (p, v) hmem
  subst hval
  have hck : containsKey (Template.new d).placeholders p = true := by
    rw [containsKey_iff, hk]
    exact List.mem_singleton.mpr rfl
  have hset : (Template.new d).set p x = .ok
      { Template.new d with
        placeholders := hmInsert (Template.new d).placeholders p x } := by
    simp [Template.set, hck]
  refine ⟨_, hset, ?_, fun s hs => replaceAll_no_occ _ _ s hs⟩
  show renderWith (hmInsert (Template.new d).placeholders p x) d =
    .ok (replaceAll (marker p) x d)
  rw [hv]
  have h1 : hmInsert [(p, ([] : Str))] p x = [(p, x)] := by
    simp [hmInsert]
  rw [h1]
  simp [renderWith, hx]

/-- C2 witness: the round trip at the document "A=@[p]@B" with X = "X". -/
theorem C2_single_placeholder_roundtrip_witness :
    ∃ t', (Template.new ("A=@[p]@B".toList)).set ("p".toList) ("X".toList) =
        .ok t' ∧
      t'.render = .ok (replaceAll (marker ("p".toList)) ("X".toList)
        ("A=@[p]@B".toList)) ∧
      ∀ s : Str, (∀ pre post, s ≠ pre ++ marker ("p".toList) ++ post) →
        replaceAll (marker ("p".toList)) ("X".toList) s = s :=
  C2_single_placeholder_roundtrip ("A=@[p]@B".toList) ("p".toList)
    ("X".toList) rfl (by decide)

/-- C3: rendering a template that still has an unbound (empty-valued) key
fails, under every iteration order of the map, with a Missing-placeholder
error naming one unbound key, and returns no output text; render takes the
template immutably (Rust `&self`), so the stored map and document are
untouched. -/
theorem C3_render_unbound_fails (t : Template) (l : List (Str × Str))
    (hl : l.Perm t.placeholders) (h : ∃ kv ∈ t.placeholders, kv.2 = []) :
    ∃ k, renderWith l t.content = .error (.missingPlaceholder k) ∧
      (k, ([] : Str)) ∈ t.placeholders := by
  obtain ⟨kv, hkv, hkv2⟩ := h
  obtain ⟨k, hk1, hk2⟩ := renderWith_error_of_unbound l t.content
    ⟨kv, hl.mem_iff.mpr hkv, hkv2⟩
  exact ⟨k, hk1, hl.mem_iff.mp hk2⟩

/-- C3 witness: a template with the single unbound key "a". -/
theorem C3_render_unbound_fails_witness :
    ∃ k, renderWith [("a".toList, ([] : Str))]
        (Template.new ("@[a]@".toList)).content =
        .error (.missingPlaceholder k) ∧
      (k, ([] : Str)) ∈ (Template.new ("@[a]@".toList)).placeholders :=
  C3_render_unbound_fails (Template.new ("@[a]@".toList))
    [("a".toList, ([] : Str))] (List.Perm.refl _)
    ⟨("a".toList, ([] : Str)), by decide, rfl⟩

/-- C4 counterexample: a fully bound template with keys p and q, p bound to
the text "@[q]@" and q bound to "Z".  Under the substitution order that
processes p before q — the canonical entry order here, one of the orders
the claim quantifies over — the "@[q]@" inserted by p's pass is replaced
by q's pass: the output is "Z Z" and "@[q]@" does not appear in it
verbatim, contradicting the claim. -/
theorem C4_counterexample :
    Except.bind ((Template.new ("@[p]@ @[q]@".toList)).set ("p".toList)
        ("@[q]@".toList)) (fun t => t.set ("q".toList) ("Z".toList)) =
      .ok (Template.mk ("@[p]@ @[q]@".toList)
        [("p".toList, "@[q]@".toList), ("q".toList, "Z".toList)]) ∧
    (([("p".toList, "@[q]@".toList), ("q".toList, "Z".toList)]
        : List (Str × Str)).all (fun kv => decide (kv.2 ≠ []))) = true ∧
    Template.render (Template.mk ("@[p]@ @[q]@".toList)
        [("p".toList, "@[q]@".toList), ("q".toList, "Z".toList)]) =
      .ok ("Z Z".toList) ∧
    containsSub ("@[q]@".toList) ("Z Z".toList) = false :=
  ⟨rfl, rfl, rfl, rfl⟩

/-- C4 amended: render substitutes sequentially over the whole working text
in map iteration order, so a bound value containing the marker text @[q]@
of another key q is re-substituted when q's pass runs after the pass that
inserted it; the inserted text appears verbatim in the output precisely
when q's pass precedes it.  Both orders of the counterexample entries (the
two permutations of that map) realise the two outcomes. -/
theorem C4_order_dependent_expansion :
    renderWith [("p".toList, "@[q]@".toList), ("q".toList, "Z".toList)]
        ("@[p]@ @[q]@".toList) = .ok ("Z Z".toList) ∧
    containsSub ("@[q]@".toList) ("Z Z".toList) = false ∧
    renderWith [("q".toList, "Z".toList), ("p".toList, "@[q]@".toList)]
        ("@[p]@ @[q]@".toList) = .ok ("@[q]@ Z".toList) ∧
    containsSub ("@[q]@".toList) ("@[q]@ Z".toList) = true ∧
    List.Perm [("q".toList, "Z".toList), ("p".toList, "@[q]@".toList)]
      [("p".toList, "@[q]@".toList), ("q".toList, "Z".toList)] :=
  ⟨rfl, rfl, rfl, rfl, List.Perm.swap _ _ _⟩

/-- C5: the key set of every template is frozen at construction: after any
sequence of bind, global-bind and render calls on an assembler whose
templates were just constructed, every member's key list is exactly what
construction produced — binds only change values, renders change nothing. -/
theorem C5_key_set_frozen (ops : List TplOp) (ds : List Str) :
    ((ops.foldl applyOp ⟨ds.map Template.new⟩).templates).map keysOf =
      (ds.map Template.new).map keysOf :=
  keysOf_foldl_applyOp ops ⟨ds.map Template.new⟩

/-- C6 counterexample: in the aggregator scenario (T1 from "A=@[x]@", T2
from "B=@[y]@", then SetGlobal("x","1")), RenderAll before y is bound does
not return "A=1\nB=@[y]@\n": it fails with Missing-placeholder "y". -/
theorem C6_counterexample :
    aggScenario.map TemplateAssembler.render_all =
      .ok (.error (.missingPlaceholder ("y".toList))) ∧
    (Except.error (TemplateError.missingPlaceholder ("y".toList))
        : Except TemplateError Str) ≠ .ok ("A=1\nB=@[y]@\n".toList) :=
  ⟨rfl, fun h => Except.noConfusion h⟩

/-- C6 amended: in the concrete aggregator scenario, RenderAll before y is
bound fails with Missing-placeholder "y", returning no text at all (rather
than returning "A=1\nB=@[y]@\n"). -/
theorem C6_render_all_fails_before_y_bound :
    aggScenario.map TemplateAssembler.render_all =
      .ok (.error (.missingPlaceholder ("y".toList))) := rfl

/-- C7: RenderAll renders the owned templates in insertion order, appending
a single newline after each rendered text, fails fast on the first template
whose render fails, propagating exactly that error and producing no partial
concatenation; in the scenario with y never bound it fails with
Missing-placeholder "y". -/
theorem C7_render_all_insertion_order_failfast :
    renderAllList [] = .ok [] ∧
    (∀ (t : Template) (rest : List Template) (r : Str), t.render = .ok r →
      renderAllList (t :: rest) =
        (renderAllList rest).map (fun s => r ++ '\n' :: s)) ∧
    (∀ (t : Template) (rest : List Template) (e : TemplateError),
      t.render = .error e → renderAllList (t :: rest) = .error e) ∧
    aggScenario.map TemplateAssembler.render_all =
      .ok (.error (.missingPlaceholder ("y".toList))) := by
  refine ⟨rfl, ?_, ?_, rfl⟩
  · intro t rest r h
    rw [show renderAllList (t :: rest) = Except.bind t.render
      (fun r => Except.bind (renderAllList rest)
        (fun rs => Except.ok (r ++ '\n' :: rs))) from rfl, h]
    cases hr : renderAllList rest with
    | ok s => rfl
    | error e => rfl
  · intro t rest e h
    rw [show renderAllList (t :: rest) = Except.bind t.render
      (fun r => Except.bind (renderAllList rest)
        (fun rs => Except.ok (r ++ '\n' :: rs))) from rfl, h]
    rfl

/-- C7 witness: a succeeding head template unfolds to its rendered text
plus a newline before the rest; a failing head propagates its error. -/
theorem C7_render_all_witness :
    renderAllList [Template.new ("hi".toList)] =
      (renderAllList []).map (fun s => "hi".toList ++ '\n' :: s) ∧
    renderAllList [Template.new ("@[z]@".toList)] =
      .error (.missingPlaceholder ("z".toList)) :=
  ⟨C7_render_all_insertion_order_failfast.2.1 (Template.new ("hi".toList))
      [] ("hi".toList) rfl,
    C7_render_all_insertion_order_failfast.2.2.1
      (Template.new ("@[z]@".toList)) []
      (.missingPlaceholder ("z".toList)) rfl⟩

/-- C8: binding a name that is not in the discovered key set fails with a
Missing-placeholder error carrying that name; set returns before touching
the map, so the template the caller holds is unchanged. -/
theorem C8_bind_unknown_fails (t : Template) (k v : Str)
    (h : k ∉ keyList t.placeholders) :
    t.set k v = .error (.missingPlaceholder k) ∧ bindResult t k v = t := by
  have hck : containsKey t.placeholders k = false := by
    rw [← Bool.not_eq_true]
    intro hc
    exact h ((containsKey_iff _ _).mp hc)
  constructor
  · simp [Template.set, hck]
  · simp [bindResult, Template.set, hck]

/-- C8 witness: binding the undeclared name "b" on a template whose only
key is "a". -/
theorem C8_bind_unknown_fails_witness :
    (Template.new ("@[a]@".toList)).set ("b".toList) ("X".toList) =
      .error (.missingPlaceholder ("b".toList)) ∧
    bindResult (Template.new ("@[a]@".toList)) ("b".toList) ("X".toList) =
      Template.new ("@[a]@".toList) :=
  C8_bind_unknown_fails (Template.new ("@[a]@".toList)) ("b".toList)
    ("X".toList) (by decide)

/-- C9: rendering a fully bound template is idempotent: under any iteration
order render succeeds and its result is uniquely determined, so consecutive
calls with no intervening bind return identical text; render takes the
template immutably (Rust `&self`), so the map after each call equals the
map before it. -/
theorem C9_render_idempotent (t : Template) (l : List (Str × Str))
    (hl : l.Perm t.placeholders) (h : ∀ kv ∈ t.placeholders, kv.2 ≠ []) :
    ∃ s, renderWith l t.content = .ok s ∧
      ∀ s', renderWith l t.content = .ok s' → s' = s := by
  obtain ⟨s, hs⟩ := renderWith_ok_of_bound l t.content
    (fun kv hkv => h kv (hl.mem_iff.mp hkv))
  refine ⟨s, hs, ?_⟩
  intro s' hs'
  rw [hs] at hs'
  injection hs' with hh
  exact hh.symm

/-- C9 witness: a fully bound single-key template. -/
theorem C9_render_idempotent_witness :
    ∃ s, renderWith [("a".toList, "v".toList)]
        (Template.mk ("@[a]@".toList) [("a".toList, "v".toList)]).content =
        .ok s ∧
      ∀ s', renderWith [("a".toList, "v".toList)]
          (Template.mk ("@[a]@".toList) [("a".toList, "v".toList)]).content =
          .ok s' → s' = s :=
  C9_render_idempotent (Template.mk ("@[a]@".toList)
      [("a".toList, "v".toList)])
    [("a".toList, "v".toList)] (List.Perm.refl _) (by decide)

/-- C10: the marker's inner text is trimmed to form the key, but render
replaces only the exact trimmed form @[key]@: "@[ p ]@" yields the key "p";
after binding p to "X" render succeeds leaving "@[ p ]@" verbatim, and in a
document holding both spellings only the exact "@[p]@" is replaced; the
whitespace-only marker "@[ ]@" yields the empty-string key, and rendering
it without a bind fails with Missing-placeholder "". -/
theorem C10_trim_vs_exact_marker :
    (Template.new ("@[ p ]@".toList)).placeholders = [("p".toList, [])] ∧
    ((Template.new ("@[ p ]@".toList)).set ("p".toList) ("X".toList)).map
        Template.render = .ok (.ok ("@[ p ]@".toList)) ∧
    ((Template.new ("@[ p ]@@[p]@".toList)).set ("p".toList)
        ("X".toList)).map Template.render = .ok (.ok ("@[ p ]@X".toList)) ∧
    (Template.new ("@[ ]@".toList)).placeholders = [([], [])] ∧
    (Template.new ("@[ ]@".toList)).render =
      .error (.missingPlaceholder []) :=
  ⟨rfl, rfl, rfl, rfl, rfl⟩

end TemplateRs
